import Mathlib

set_option synthInstance.maxSize 1000
set_option maxRecDepth 100000

/-!
Verification of the `pygmalion` card-game solver core (`urn.py`, `put.py`,
`rootfind.py`) against its specification.

The Python sources are shallowly embedded: Python ints become `ℤ`/`ℕ`,
float probabilities become `ℚ` (the solver only ever divides exact counts),
dicts become association lists, and fallible dict indexing / raising calls
become `Option`/`Except` values.
-/

namespace Pygmalion

/-! ## Deal/Trick rules (`put.py`, class `PutRules`) -/

/-- `sorted([a, b, c])` for three integers: the ascending rearrangement,
as used by `PutRules.score_match` (`stricks = sorted([trick1, trick2, trick3])`). -/
def sort3 (a b c : ℤ) : ℤ × ℤ × ℤ :=
  if a ≤ b then
    if b ≤ c then (a, b, c)
    else if a ≤ c then (a, c, b)
    else (c, a, b)
  else
    if a ≤ c then (b, a, c)
    else if b ≤ c then (b, c, a)
    else (c, b, a)

/-- `PutRules.score_trick(play1, play2)`: +1, 0 or -1 from player 1's perspective. -/
def score_trick (play1 play2 : ℤ) : ℤ :=
  if play1 > play2 then 1 else if play1 < play2 then -1 else 0

/-- `PutRules.score_match(trick1, trick2, trick3, joker_1, joker_2)`:
aggregate three trick results into a match result from player 1's
perspective, with the joker house rule.  Direct transcription of the
branch structure of `put.py` lines 94-144. -/
def score_match (trick1 trick2 trick3 : ℤ) (joker_1 joker_2 : Bool) : ℤ :=
  match sort3 trick1 trick2 trick3 with
  | (s0, s1, s2) =>
    if joker_1 && joker_2 then
      if s0 ≤ 0 ∧ s1 > 0 then 1
      else if s1 < 0 ∧ s2 ≥ 0 then -1
      else 0
    else if joker_1 then
      if s0 > 0 then -1
      else if s0 ≤ 0 ∧ s1 > 0 then 1
      else if s1 < 0 then -1
      else 0
    else if joker_2 then
      if s2 < 0 then 1
      else if s2 ≥ 0 ∧ s1 < 0 then -1
      else if s1 > 0 then 1
      else 0
    else
      if s1 > 0 then 1
      else if s1 < 0 then -1
      else 0

/-- `PutRules.score_from(pair1, pair2, pair3)` for a joker predicate `jf`:
detect jokers on either side, score each trick, aggregate. -/
def score_from (jf : ℤ → Bool) (pair1 pair2 pair3 : ℤ × ℤ) : ℤ :=
  let joker_1 := jf pair1.1 || jf pair2.1 || jf pair3.1
  let joker_2 := jf pair1.2 || jf pair2.2 || jf pair3.2
  score_match (score_trick pair1.1 pair1.2) (score_trick pair2.1 pair2.2)
    (score_trick pair3.1 pair3.2) joker_1 joker_2

/-! ## Urn (`urn.py`, class `Urn`)

An `Urn` is a `collections.Counter`: a list of distinct keys together with a
count function (counts live in `ℤ` because the scratch copy inside
`Urn.perm_k` decrements below zero before the zero-weight filter fires).
`Urn.perm_k(k)` iterates `itertools.product(self.keys(), repeat=k)`,
computes the falling-count weight `wt` of each tuple, and yields the tuples
with `wt != 0` tagged with `wt / perm(total, k)` and the residual counts. -/

/-- One decrement `acop[av] -= 1` of the scratch copy. -/
def decr (cnt : ℤ → ℤ) (a : ℤ) : ℤ → ℤ := fun b => if b = a then cnt b - 1 else cnt b

/-- The weight `wt` computed by `Urn.perm_k` for one tuple: the product of
the successively decremented counts. -/
def drawWt (cnt : ℤ → ℤ) : List ℤ → ℤ
  | [] => 1
  | a :: rest => cnt a * drawWt (decr cnt a) rest

/-- The residual count function after removing the tuple (the dict `acop`). -/
def decrList (cnt : ℤ → ℤ) : List ℤ → (ℤ → ℤ)
  | [] => cnt
  | a :: rest => decrList (decr cnt a) rest

/-- `itertools.product(keys, repeat=k)` as a list of `k`-tuples. -/
def ktuples (keys : List ℤ) : ℕ → List (List ℤ)
  | 0 => [[]]
  | k + 1 => keys.flatMap fun a => (ktuples keys k).map (a :: ·)

/-- `sum(self.values())`. -/
def totalCount (keys : List ℤ) (cnt : ℤ → ℤ) : ℤ := (keys.map cnt).sum

/-- `math.perm(n, k) = n (n-1) ⋯ (n-k+1)`, as the falling factorial on `ℤ`. -/
def fallFac : ℤ → ℕ → ℤ
  | _, 0 => 1
  | n, k + 1 => n * fallFac (n - 1) k

/-- `Urn.perm_k(k)`: the tuples of nonzero weight, each with its probability
`wt / perm(total, k)` and the residual urn. -/
def perm_k (keys : List ℤ) (cnt : ℤ → ℤ) (k : ℕ) : List (List ℤ × ℚ × (ℤ → ℤ)) :=
  ((ktuples keys k).filter fun t => decide (drawWt cnt t ≠ 0)).map
    fun t => (t, (drawWt cnt t : ℚ) / ((fallFac (totalCount keys cnt) k : ℤ) : ℚ),
      decrList cnt t)

lemma sum_map_mul_left' {α : Type} (c : ℤ) (f : α → ℤ) (l : List α) :
    (l.map fun x => c * f x).sum = c * (l.map f).sum := by
  induction l with
  | nil => simp
  | cons b l ih => simp [ih, mul_add]

lemma sum_map_mul_right' {α : Type} (c : ℤ) (f : α → ℤ) (l : List α) :
    (l.map fun x => f x * c).sum = (l.map f).sum * c := by
  induction l with
  | nil => simp
  | cons b l ih => simp [ih, add_mul]

lemma map_decr_sum (cnt : ℤ → ℤ) (a : ℤ) (l : List ℤ) (ha : a ∉ l) :
    (l.map (decr cnt a)).sum = (l.map cnt).sum := by
  induction l with
  | nil => simp
  | cons b l ih =>
    have hba : b ≠ a := fun h => ha (h ▸ List.mem_cons_self b l)
    have hal : a ∉ l := fun h => ha (List.mem_cons_of_mem b h)
    simp [decr, hba, ih hal]

lemma totalCount_decr (keys : List ℤ) (cnt : ℤ → ℤ) (a : ℤ)
    (hnd : keys.Nodup) (ha : a ∈ keys) :
    totalCount keys (decr cnt a) = totalCount keys cnt - 1 := by
  induction keys with
  | nil => cases ha
  | cons b keys ih =>
    rcases List.nodup_cons.mp hnd with ⟨hb, hnd'⟩
    rcases List.mem_cons.mp ha with rfl | ha'
    · simp only [totalCount, List.map_cons, List.sum_cons]
      rw [map_decr_sum cnt a keys hb]
      simp [decr]
      ring
    · have hba : b ≠ a := fun h => hb (h ▸ ha')
      simp only [totalCount, List.map_cons, List.sum_cons]
      have := ih hnd' ha'
      simp only [totalCount] at this
      rw [this]
      simp [decr, hba]
      ring

lemma sum_drawWt_bind (cnt : ℤ → ℤ) (rest : List (List ℤ)) (ks : List ℤ) :
    ((ks.flatMap fun a => rest.map (a :: ·)).map (drawWt cnt)).sum
      = (ks.map fun a => cnt a * (rest.map (drawWt (decr cnt a))).sum).sum := by
  induction ks with
  | nil => simp
  | cons b ks ih =>
    rw [List.flatMap_cons, List.map_append, List.sum_append, ih, List.map_cons, List.sum_cons]
    congr 1
    rw [List.map_map]
    have hcomp : (drawWt cnt ∘ fun t => b :: t) = fun t => cnt b * drawWt (decr cnt b) t := by
      funext t
      simp [Function.comp, drawWt]
    rw [hcomp, sum_map_mul_left']

/-- The falling-count weights over all `k`-tuples of keys sum to the falling
factorial of the total count (the combinatorial heart of `Urn.perm_k`). -/
lemma sum_drawWt (keys : List ℤ) (hnd : keys.Nodup) :
    ∀ (k : ℕ) (cnt : ℤ → ℤ),
      ((ktuples keys k).map (drawWt cnt)).sum = fallFac (totalCount keys cnt) k := by
  intro k
  induction k with
  | zero => intro cnt; simp [ktuples, drawWt, fallFac]
  | succ k ih =>
    intro cnt
    show ((keys.flatMap fun a => (ktuples keys k).map (a :: ·)).map (drawWt cnt)).sum = _
    rw [sum_drawWt_bind]
    have hcongr : (keys.map fun a => cnt a * ((ktuples keys k).map (drawWt (decr cnt a))).sum)
        = keys.map fun a => cnt a * fallFac (totalCount keys cnt - 1) k := by
      apply List.map_congr_left
      intro a ha
      rw [ih (decr cnt a), totalCount_decr keys cnt a hnd ha]
    rw [hcongr, sum_map_mul_right' (fallFac (totalCount keys cnt - 1) k) cnt keys]
    rfl

lemma mem_ktuples (keys : List ℤ) :
    ∀ (k : ℕ) (t : List ℤ), t ∈ ktuples keys k ↔ t.length = k ∧ ∀ x ∈ t, x ∈ keys := by
  intro k
  induction k with
  | zero =>
    intro t
    constructor
    · intro ht
      rcases List.mem_singleton.mp ht with rfl
      simp
    · intro ⟨hl, _⟩
      rcases List.length_eq_zero.mp hl with rfl
      simp [ktuples]
  | succ k ih =>
    intro t
    constructor
    · intro ht
      rcases List.mem_flatMap.mp ht with ⟨a, ha, hmem⟩
      rcases List.mem_map.mp hmem with ⟨t', ht', rfl⟩
      rcases (ih t').mp ht' with ⟨hl, hall⟩
      refine ⟨by simp [hl], ?_⟩
      intro x hx
      rcases List.mem_cons.mp hx with rfl | hx'
      · exact ha
      · exact hall x hx'
    · intro ⟨hl, hall⟩
      cases t with
      | nil => simp at hl
      | cons a t' =>
        apply List.mem_flatMap.mpr
        refine ⟨a, hall a (List.mem_cons_self a t'), ?_⟩
        apply List.mem_map.mpr
        refine ⟨t', ?_, rfl⟩
        apply (ih t').mpr
        exact ⟨by simpa using hl, fun x hx => hall x (List.mem_cons_of_mem a hx)⟩

lemma decr_nonneg (cnt : ℤ → ℤ) (a : ℤ) (hpos : ∀ b, 0 ≤ cnt b) (h1 : 1 ≤ cnt a) :
    ∀ b, 0 ≤ decr cnt a b := by
  intro b
  by_cases hb : b = a
  · simp [decr, hb]; omega
  · simp [decr, hb]; exact hpos b

lemma drawWt_nonneg (t : List ℤ) :
    ∀ (cnt : ℤ → ℤ), (∀ b, 0 ≤ cnt b) → 0 ≤ drawWt cnt t := by
  induction t with
  | nil => intro cnt _; simp [drawWt]
  | cons a rest ih =>
    intro cnt hpos
    show 0 ≤ cnt a * drawWt (decr cnt a) rest
    by_cases hca : cnt a = 0
    · simp [hca]
    · have h1 : 1 ≤ cnt a := by have := hpos a; omega
      exact mul_nonneg (hpos a) (ih (decr cnt a) (decr_nonneg cnt a hpos h1))

/-- A tuple has nonzero weight iff it is drawable without replacement:
every value occurs at most its count many times. -/
lemma drawWt_ne_zero_iff (t : List ℤ) :
    ∀ (cnt : ℤ → ℤ), (∀ b, 0 ≤ cnt b) →
      (drawWt cnt t ≠ 0 ↔ ∀ x : ℤ, (t.count x : ℤ) ≤ cnt x) := by
  induction t with
  | nil =>
    intro cnt hpos
    simp only [drawWt]
    constructor
    · intro _ x; simpa using hpos x
    · intro _; exact one_ne_zero
  | cons a rest ih =>
    intro cnt hpos
    show cnt a * drawWt (decr cnt a) rest ≠ 0 ↔ _
    by_cases hca : cnt a = 0
    · constructor
      · intro h; exact absurd (by simp [hca]) h
      · intro h
        have := h a
        rw [List.count_cons_self, hca] at this
        push_cast at this
        have : (rest.count a : ℤ) + 1 ≤ 0 := this
        have hc : (0 : ℤ) ≤ rest.count a := Int.natCast_nonneg _
        omega
    · have h1 : 1 ≤ cnt a := by have := hpos a; omega
      have hdn := decr_nonneg cnt a hpos h1
      rw [mul_ne_zero_iff]
      constructor
      · intro ⟨_, hrest⟩ x
        have hx := (ih (decr cnt a) hdn).mp hrest x
        by_cases hxa : x = a
        · subst hxa
          rw [List.count_cons_self]
          simp [decr] at hx
          push_cast
          omega
        · rw [List.count_cons_of_ne hxa]
          simpa [decr, hxa] using hx
      · intro h
        refine ⟨hca, (ih (decr cnt a) hdn).mpr ?_⟩
        intro x
        by_cases hxa : x = a
        · subst hxa
          have := h x
          rw [List.count_cons_self] at this
          push_cast at this
          simp [decr]
          omega
        · have := h x
          rw [List.count_cons_of_ne hxa] at this
          simpa [decr, hxa] using this

lemma decrList_eq (t : List ℤ) :
    ∀ (cnt : ℤ → ℤ) (x : ℤ), decrList cnt t x = cnt x - t.count x := by
  induction t with
  | nil => intro cnt x; simp [decrList]
  | cons a rest ih =>
    intro cnt x
    show decrList (decr cnt a) rest x = _
    rw [ih (decr cnt a) x]
    by_cases hxa : x = a
    · subst hxa
      rw [List.count_cons_self]
      simp [decr]
      ring
    · rw [List.count_cons_of_ne hxa]
      simp [decr, hxa]

lemma fallFac_pos : ∀ (k : ℕ) (n : ℤ), (k : ℤ) ≤ n → 0 < fallFac n k := by
  intro k
  induction k with
  | zero => intro n _; exact one_pos
  | succ k ih =>
    intro n hk
    have hn : 0 < n := by push_cast at hk; omega
    have : (k : ℤ) ≤ n - 1 := by push_cast at hk ⊢; omega
    exact mul_pos hn (ih (n - 1) this)

lemma fallFac_nonneg : ∀ (k : ℕ) (n : ℤ), 0 ≤ n → 0 ≤ fallFac n k := by
  intro k
  induction k with
  | zero => intro n _; exact zero_le_one
  | succ k ih =>
    intro n hn
    by_cases h0 : n = 0
    · simp [h0, fallFac]
    · have h1 : 1 ≤ n := by omega
      exact mul_nonneg hn (ih (n - 1) (by omega))

lemma sum_map_intCast {α : Type} (f : α → ℤ) (l : List α) :
    (l.map fun x => ((f x : ℤ) : ℚ)).sum = (((l.map f).sum : ℤ) : ℚ) := by
  induction l with
  | nil => simp
  | cons b l ih => simp [ih]

lemma sum_map_div {α : Type} (f : α → ℚ) (d : ℚ) (l : List α) :
    (l.map fun x => f x / d).sum = (l.map f).sum / d := by
  induction l with
  | nil => simp
  | cons b l ih => simp [ih, add_div]

lemma sum_map_filter_ne_zero {α : Type} (f : α → ℤ) (l : List α) :
    ((l.filter fun x => decide (f x ≠ 0)).map f).sum = (l.map f).sum := by
  induction l with
  | nil => simp
  | cons b l ih =>
    by_cases hb : f b = 0
    · rw [List.filter_cons, if_neg (by simp [hb]), ih, List.map_cons, List.sum_cons, hb,
        zero_add]
    · rw [List.filter_cons, if_pos (by simpa using hb), List.map_cons, List.sum_cons,
        List.map_cons, List.sum_cons, ih]

/-- C1: for every urn (distinct keys, non-negative counts supported on the
keys) and every draw size `k` at most the total count, `Urn.perm_k` yields
every ordered `k`-tuple drawable without replacement (its weight is then
nonzero), tagged with probability `wt / perm(total, k)` and the exact
residual counts, and the probabilities over the enumeration sum to 1. -/
theorem urn_perm_k_complete_and_sums_to_one
    (keys : List ℤ) (cnt : ℤ → ℤ) (k : ℕ)
    (hnd : keys.Nodup) (hpos : ∀ a, 0 ≤ cnt a) (hsupp : ∀ a, cnt a ≠ 0 → a ∈ keys)
    (hk : (k : ℤ) ≤ totalCount keys cnt) :
    (∀ t : List ℤ, t.length = k → (∀ x : ℤ, (t.count x : ℤ) ≤ cnt x) →
      drawWt cnt t ≠ 0 ∧
        (t, (drawWt cnt t : ℚ) / ((fallFac (totalCount keys cnt) k : ℤ) : ℚ),
          decrList cnt t) ∈ perm_k keys cnt k) ∧
    ((perm_k keys cnt k).map fun e => e.2.1).sum = 1 := by
  constructor
  · intro t hlen hdraw
    have hne : drawWt cnt t ≠ 0 := (drawWt_ne_zero_iff t cnt hpos).mpr hdraw
    refine ⟨hne, ?_⟩
    have hkt : t ∈ ktuples keys k := by
      apply (mem_ktuples keys k t).mpr
      refine ⟨hlen, ?_⟩
      intro x hx
      apply hsupp x
      have hcx := hdraw x
      have : 1 ≤ t.count x := List.count_pos_iff.mpr hx
      have : (1 : ℤ) ≤ (t.count x : ℤ) := by exact_mod_cast this
      omega
    have hfil : t ∈ (ktuples keys k).filter fun t => decide (drawWt cnt t ≠ 0) := by
      apply List.mem_filter.mpr
      exact ⟨hkt, by simpa using hne⟩
    exact List.mem_map.mpr ⟨t, hfil, rfl⟩
  · have hden : ((fallFac (totalCount keys cnt) k : ℤ) : ℚ) ≠ 0 := by
      have := fallFac_pos k (totalCount keys cnt) hk
      exact_mod_cast this.ne'
    unfold perm_k
    rw [List.map_map]
    have hcomp : ((fun e : List ℤ × ℚ × (ℤ → ℤ) => e.2.1) ∘ fun t =>
        (t, (drawWt cnt t : ℚ) / ((fallFac (totalCount keys cnt) k : ℤ) : ℚ), decrList cnt t))
        = fun t => (drawWt cnt t : ℚ) / ((fallFac (totalCount keys cnt) k : ℤ) : ℚ) := rfl
    rw [hcomp, sum_map_div, sum_map_intCast, sum_map_filter_ne_zero,
      sum_drawWt keys hnd k cnt]
    exact div_self hden

/-- Witness for C1 on the urn with counts `0 ↦ 1, 1 ↦ 2` and `k = 2`. -/
theorem urn_perm_k_complete_and_sums_to_one_witness :
    ((perm_k [0, 1] (fun a => if a = 0 then 1 else if a = 1 then 2 else 0) 2).map
      fun e => e.2.1).sum = 1 := by
  refine (urn_perm_k_complete_and_sums_to_one [0, 1]
    (fun a => if a = 0 then 1 else if a = 1 then 2 else 0) 2 (by decide) ?_ ?_ ?_).2
  · intro a
    by_cases h0 : a = 0
    · simp [h0]
    · by_cases h1 : a = 1
      · simp [h0, h1]
      · simp [h0, h1]
  · intro a ha
    by_cases h0 : a = 0
    · simp [h0]
    · by_cases h1 : a = 1
      · simp [h1]
      · simp [h0, h1] at ha
  · decide

/-! ## Optimal strategy (`put.py`, class `PutOptimalStrategy`)

Decision keys are tuples of card values, decision values are
`(card, match value, deal win prob, deal lose prob)`; the value tables map
keys to `(match value, deal win prob, deal lose prob)`. -/

abbrev K5 := ℤ × ℤ × ℤ × ℤ × ℤ
abbrev K4 := ℤ × ℤ × ℤ × ℤ
abbrev K3 := ℤ × ℤ × ℤ
abbrev V3 := ℚ × ℚ × ℚ
abbrev E4 := ℤ × ℚ × ℚ × ℚ

/-- Python dict lookup on an association list with distinct keys. -/
def lookupTab {κ υ : Type} [DecidableEq κ] : List (κ × υ) → κ → Option υ
  | [], _ => none
  | e :: rest, k => if e.1 = k then some e.2 else lookupTab rest k

/-- `PutOptimalStrategy._put_best(alist) = min(alist, key=lambda x: (-x[1], x[0]))`
on a non-empty list of `(card, valuation, ...)` tuples.  Python's `min` keeps
the first element whose key is strictly smaller than the running minimum, so
the accumulator is replaced exactly when the candidate has strictly larger
valuation, or equal valuation and strictly smaller card. -/
def put_best {β : Type} (hd : ℤ × ℚ × β) (tl : List (ℤ × ℚ × β)) : ℤ × ℚ × β :=
  tl.foldl (fun acc x =>
    if acc.2.1 < x.2.1 ∨ (x.2.1 = acc.2.1 ∧ x.1 < acc.1) then x else acc) hd

lemma put_best_nil {β : Type} (hd : ℤ × ℚ × β) : put_best hd [] = hd := rfl

lemma put_best_cons {β : Type} (hd x : ℤ × ℚ × β) (tl : List (ℤ × ℚ × β)) :
    put_best hd (x :: tl) =
      put_best (if hd.2.1 < x.2.1 ∨ (x.2.1 = hd.2.1 ∧ x.1 < hd.1) then x else hd) tl := rfl

lemma not_beats_trans {β : Type} (d acc r : ℤ × ℚ × β)
    (h1 : ¬(acc.2.1 < d.2.1 ∨ (d.2.1 = acc.2.1 ∧ d.1 < acc.1)))
    (h2 : ¬(r.2.1 < acc.2.1 ∨ (acc.2.1 = r.2.1 ∧ acc.1 < r.1))) :
    ¬(r.2.1 < d.2.1 ∨ (d.2.1 = r.2.1 ∧ d.1 < r.1)) := by
  push_neg at h1 h2 ⊢
  rcases h1 with ⟨hv1, hc1⟩
  rcases h2 with ⟨hv2, hc2⟩
  refine ⟨le_trans hv1 hv2, ?_⟩
  intro heq
  have hda : d.2.1 = acc.2.1 := by linarith
  have har : acc.2.1 = r.2.1 := by linarith
  have h1' := hc1 hda
  have h2' := hc2 har
  linarith

/-- `put_best` returns a member of the list that no other member "beats"
in the `(-valuation, card)` lexicographic order. -/
lemma put_best_spec {β : Type} (tl : List (ℤ × ℚ × β)) :
    ∀ hd : ℤ × ℚ × β,
      put_best hd tl ∈ hd :: tl ∧
      ∀ y ∈ hd :: tl, ¬((put_best hd tl).2.1 < y.2.1 ∨
        (y.2.1 = (put_best hd tl).2.1 ∧ y.1 < (put_best hd tl).1)) := by
  induction tl with
  | nil =>
    intro hd
    rw [put_best_nil]
    refine ⟨List.mem_cons_self hd [], ?_⟩
    intro y hy
    rcases List.mem_singleton.mp hy with rfl
    push_neg
    exact ⟨le_refl _, fun _ => le_refl _⟩
  | cons x tl ih =>
    intro hd
    rw [put_best_cons]
    by_cases hc : hd.2.1 < x.2.1 ∨ (x.2.1 = hd.2.1 ∧ x.1 < hd.1)
    · rw [if_pos hc]
      obtain ⟨hmem, hmin⟩ := ih x
      have hd_not_beats_x : ¬(x.2.1 < hd.2.1 ∨ (hd.2.1 = x.2.1 ∧ hd.1 < x.1)) := by
        push_neg
        rcases hc with h | ⟨heq, hlt⟩
        · exact ⟨le_of_lt h, fun he => absurd he (ne_of_lt h)⟩
        · exact ⟨le_of_eq heq.symm, fun _ => le_of_lt hlt⟩
      refine ⟨List.mem_cons_of_mem hd hmem, ?_⟩
      intro y hy
      rcases List.mem_cons.mp hy with rfl | hy'
      · exact not_beats_trans _ x (put_best x tl) hd_not_beats_x
          (hmin x (List.mem_cons_self x tl))
      · exact hmin y hy'
    · rw [if_neg hc]
      obtain ⟨hmem, hmin⟩ := ih hd
      constructor
      · rcases List.mem_cons.mp hmem with h | h
        · rw [h]
          exact List.mem_cons_self hd (x :: tl)
        · exact List.mem_cons_of_mem hd (List.mem_cons_of_mem x h)
      · intro y hy
        rcases List.mem_cons.mp hy with rfl | hy'
        · exact hmin _ (List.mem_cons_self _ tl)
        · rcases List.mem_cons.mp hy' with rfl | hy''
          · exact not_beats_trans _ hd (put_best hd tl) hc
              (hmin hd (List.mem_cons_self hd tl))
          · exact hmin y (List.mem_cons_of_mem hd hy'')

/-- C5: on every non-empty candidate list, `_put_best` returns a member
whose valuation is maximal, and whose card is smallest among members of
maximal valuation (play the lower card on a tie, retaining the higher). -/
theorem put_best_max_valuation_lowest_card {β : Type}
    (hd : ℤ × ℚ × β) (tl : List (ℤ × ℚ × β)) :
    put_best hd tl ∈ hd :: tl ∧
    (∀ y ∈ hd :: tl, y.2.1 ≤ (put_best hd tl).2.1) ∧
    (∀ y ∈ hd :: tl, y.2.1 = (put_best hd tl).2.1 → (put_best hd tl).1 ≤ y.1) := by
  obtain ⟨hmem, hmin⟩ := put_best_spec tl hd
  refine ⟨hmem, ?_, ?_⟩
  · intro y hy
    have h := hmin y hy
    push_neg at h
    exact h.1
  · intro y hy heq
    have h := hmin y hy
    push_neg at h
    exact h.2 heq

/-- Witness for C5: on the list `[(2, 1, _), (1, 1, _)]` the chosen tuple is a
member, dominates the valuation of the head, and has the smallest card among
the valuation ties. -/
theorem put_best_max_valuation_lowest_card_witness :
    put_best ((2 : ℤ), (1 : ℚ), ((0 : ℚ), (0 : ℚ))) [(1, 1, (0, 0))] ∈
      [((2 : ℤ), (1 : ℚ), ((0 : ℚ), (0 : ℚ))), (1, 1, (0, 0))] ∧
    ((2 : ℤ), (1 : ℚ), ((0 : ℚ), (0 : ℚ))).2.1 ≤
      (put_best ((2 : ℤ), (1 : ℚ), ((0 : ℚ), (0 : ℚ))) [(1, 1, (0, 0))]).2.1 := by
  obtain ⟨h1, h2, h3⟩ := put_best_max_valuation_lowest_card
    ((2 : ℤ), (1 : ℚ), ((0 : ℚ), (0 : ℚ))) [(1, 1, (0, 0))]
  exact ⟨h1, h2 _ (List.mem_cons_self _ _)⟩

/-- Loop body of `PutOptimalStrategy.second_trick_follower_decision`
(`put.py` lines 260-279), abstracted over the value table `secf` (the code
builds it as `self.second_trick_follower_value(pw_tup)`): iterate the deck's
`perm_k(k=5)`, skip non-canonical keys (`myun1 < myun2`), skip when the
`.get` for `val1` misses, abort (Python would raise `TypeError` inside
`min`) when the `.get` for `val2` misses, and store
`_put_best([(myun1, *val1), (myun2, *val2)])`. -/
def stfd_loop (secf : K5 → Option V3) :
    List (List ℤ × ℚ × (ℤ → ℤ)) → Option (List (K5 × E4))
  | [] => some []
  | e :: rest =>
    match e.1 with
    | [myun1, myun2, mypl1, thpl1, thpl2] =>
      if myun1 < myun2 then stfd_loop secf rest
      else
        match secf (myun2, mypl1, myun1, thpl1, thpl2) with
        | none => stfd_loop secf rest
        | some val1 =>
          match secf (myun1, mypl1, myun2, thpl1, thpl2) with
          | none => none
          | some val2 =>
            (stfd_loop secf rest).map
              (((myun1, myun2, mypl1, thpl1, thpl2),
                put_best (myun1, val1) [(myun2, val2)]) :: ·)
    | _ => stfd_loop secf rest

/-- `second_trick_follower_decision`, keyed by
`(unplayed1, unplayed2, myplayed1, theirplayed1, theirplayed2)`. -/
def second_trick_follower_decision (keys : List ℤ) (cnt : ℤ → ℤ)
    (secf : K5 → Option V3) : Option (List (K5 × E4)) :=
  stfd_loop secf (perm_k keys cnt 5)

/-- Loop body of `PutOptimalStrategy.second_trick_leader_decision`
(`put.py` lines 314-337), abstracted over the value table `secl`: iterate
`perm_k(k=4)`, skip `myun1 < myun2` and `mypl1 < thpl1`, skip when `val1`
misses, abort when `val2` misses. -/
def stld_loop (secl : K4 → Option V3) :
    List (List ℤ × ℚ × (ℤ → ℤ)) → Option (List (K4 × E4))
  | [] => some []
  | e :: rest =>
    match e.1 with
    | [myun1, myun2, mypl1, thpl1] =>
      if myun1 < myun2 then stld_loop secl rest
      else if mypl1 < thpl1 then stld_loop secl rest
      else
        match secl (myun2, mypl1, myun1, thpl1) with
        | none => stld_loop secl rest
        | some val1 =>
          match secl (myun1, mypl1, myun2, thpl1) with
          | none => none
          | some val2 =>
            (stld_loop secl rest).map
              (((myun1, myun2, mypl1, thpl1),
                put_best (myun1, val1) [(myun2, val2)]) :: ·)
    | _ => stld_loop secl rest

/-- `second_trick_leader_decision`, keyed by
`(unplayed1, unplayed2, myplayed1, theirplayed1)`. -/
def second_trick_leader_decision (keys : List ℤ) (cnt : ℤ → ℤ)
    (secl : K4 → Option V3) : Option (List (K4 × E4)) :=
  stld_loop secl (perm_k keys cnt 4)

/-- Loop body of `PutOptimalStrategy.first_trick_follower_decision`
(`put.py` lines 388-408), abstracted over the value table `firf`: iterate
`perm_k(k=4)`, skip non-descending `(myun1, myun2, myun3)`, abort (Python
`KeyError`) when any of the three direct lookups misses. -/
def ftfd_loop (firf : K4 → Option V3) :
    List (List ℤ × ℚ × (ℤ → ℤ)) → Option (List (K4 × E4))
  | [] => some []
  | e :: rest =>
    match e.1 with
    | [myun1, myun2, myun3, thpl1] =>
      if myun1 < myun2 ∨ myun2 < myun3 then ftfd_loop firf rest
      else
        match firf (myun2, myun3, myun1, thpl1) with
        | none => none
        | some val1 =>
          match firf (myun1, myun3, myun2, thpl1) with
          | none => none
          | some val2 =>
            match firf (myun1, myun2, myun3, thpl1) with
            | none => none
            | some val3 =>
              (ftfd_loop firf rest).map
                (((myun1, myun2, myun3, thpl1),
                  put_best (myun1, val1) [(myun2, val2), (myun3, val3)]) :: ·)
    | _ => ftfd_loop firf rest

/-- `first_trick_follower_decision`, keyed by
`(unplayed1, unplayed2, unplayed3, theirplayed1)`. -/
def first_trick_follower_decision (keys : List ℤ) (cnt : ℤ → ℤ)
    (firf : K4 → Option V3) : Option (List (K4 × E4)) :=
  ftfd_loop firf (perm_k keys cnt 4)

/-- Loop body of `PutOptimalStrategy.first_trick_leader_decision`
(`put.py` lines 475-495), abstracted over the value table `firl`: iterate
`perm_k(k=3)`, skip non-descending keys, abort when a lookup misses. -/
def ftld_loop (firl : K3 → Option V3) :
    List (List ℤ × ℚ × (ℤ → ℤ)) → Option (List (K3 × E4))
  | [] => some []
  | e :: rest =>
    match e.1 with
    | [myun1, myun2, myun3] =>
      if myun1 < myun2 ∨ myun2 < myun3 then ftld_loop firl rest
      else
        match firl (myun2, myun3, myun1) with
        | none => none
        | some val1 =>
          match firl (myun1, myun3, myun2) with
          | none => none
          | some val2 =>
            match firl (myun1, myun2, myun3) with
            | none => none
            | some val3 =>
              (ftld_loop firl rest).map
                (((myun1, myun2, myun3),
                  put_best (myun1, val1) [(myun2, val2), (myun3, val3)]) :: ·)
    | _ => ftld_loop firl rest

/-- `first_trick_leader_decision`, keyed by `(unplayed1, unplayed2, unplayed3)`. -/
def first_trick_leader_decision (keys : List ℤ) (cnt : ℤ → ℤ)
    (firl : K3 → Option V3) : Option (List (K3 × E4)) :=
  ftld_loop firl (perm_k keys cnt 3)

lemma stfd_loop_plays_from_hand (secf : K5 → Option V3) :
    ∀ (l : List (List ℤ × ℚ × (ℤ → ℤ))) (tab : List (K5 × E4)),
      stfd_loop secf l = some tab →
      ∀ kv ∈ tab, kv.2.1 = kv.1.1 ∨ kv.2.1 = kv.1.2.1 := by
  intro l
  induction l with
  | nil =>
    intro tab htab kv hkv
    simp only [stfd_loop, Option.some.injEq] at htab
    subst htab
    cases hkv
  | cons e rest ih =>
    intro tab htab kv hkv
    obtain ⟨t, pr⟩ := e
    rcases t with _ | ⟨a1, _ | ⟨a2, _ | ⟨a3, _ | ⟨a4, _ | ⟨a5, _ | _⟩⟩⟩⟩⟩ <;>
      simp only [stfd_loop] at htab
    case cons.cons.cons.cons.cons.nil =>
      split at htab
      · exact ih tab htab kv hkv
      · split at htab
        · exact ih tab htab kv hkv
        · split at htab
          · cases htab
          · rcases Option.map_eq_some'.mp htab with ⟨tab0, hrest, heq⟩
            subst heq
            rcases List.mem_cons.mp hkv with rfl | hkv'
            · obtain ⟨hmem, _⟩ := put_best_spec [((a2 : ℤ), _)] ((a1 : ℤ), _)
              rcases List.mem_cons.mp hmem with hbest | hbest
              · left
                rw [hbest]
              · right
                rcases List.mem_singleton.mp hbest with hb
                rw [hb]
            · exact ih tab0 hrest kv hkv'
    all_goals exact ih tab htab kv hkv

lemma stld_loop_plays_from_hand (secl : K4 → Option V3) :
    ∀ (l : List (List ℤ × ℚ × (ℤ → ℤ))) (tab : List (K4 × E4)),
      stld_loop secl l = some tab →
      ∀ kv ∈ tab, kv.2.1 = kv.1.1 ∨ kv.2.1 = kv.1.2.1 := by
  intro l
  induction l with
  | nil =>
    intro tab htab kv hkv
    simp only [stld_loop, Option.some.injEq] at htab
    subst htab
    cases hkv
  | cons e rest ih =>
    intro tab htab kv hkv
    obtain ⟨t, pr⟩ := e
    rcases t with _ | ⟨a1, _ | ⟨a2, _ | ⟨a3, _ | ⟨a4, _ | _⟩⟩⟩⟩ <;>
      simp only [stld_loop] at htab
    case cons.cons.cons.cons.nil =>
      split at htab
      · exact ih tab htab kv hkv
      · split at htab
        · exact ih tab htab kv hkv
        · split at htab
          · exact ih tab htab kv hkv
          · split at htab
            · cases htab
            · rcases Option.map_eq_some'.mp htab with ⟨tab0, hrest, heq⟩
              subst heq
              rcases List.mem_cons.mp hkv with rfl | hkv'
              · obtain ⟨hmem, _⟩ := put_best_spec [((a2 : ℤ), _)] ((a1 : ℤ), _)
                rcases List.mem_cons.mp hmem with hbest | hbest
                · left
                  rw [hbest]
                · right
                  rcases List.mem_singleton.mp hbest with hb
                  rw [hb]
              · exact ih tab0 hrest kv hkv'
    all_goals exact ih tab htab kv hkv

lemma ftfd_loop_plays_from_hand (firf : K4 → Option V3) :
    ∀ (l : List (List ℤ × ℚ × (ℤ → ℤ))) (tab : List (K4 × E4)),
      ftfd_loop firf l = some tab →
      ∀ kv ∈ tab, kv.2.1 = kv.1.1 ∨ kv.2.1 = kv.1.2.1 ∨ kv.2.1 = kv.1.2.2.1 := by
  intro l
  induction l with
  | nil =>
    intro tab htab kv hkv
    simp only [ftfd_loop, Option.some.injEq] at htab
    subst htab
    cases hkv
  | cons e rest ih =>
    intro tab htab kv hkv
    obtain ⟨t, pr⟩ := e
    rcases t with _ | ⟨a1, _ | ⟨a2, _ | ⟨a3, _ | ⟨a4, _ | _⟩⟩⟩⟩ <;>
      simp only [ftfd_loop] at htab
    case cons.cons.cons.cons.nil =>
      split at htab
      · exact ih tab htab kv hkv
      · split at htab
        · cases htab
        · split at htab
          · cases htab
          · split at htab
            · cases htab
            · rcases Option.map_eq_some'.mp htab with ⟨tab0, hrest, heq⟩
              subst heq
              rcases List.mem_cons.mp hkv with rfl | hkv'
              · obtain ⟨hmem, _⟩ := put_best_spec [((a2 : ℤ), _), ((a3 : ℤ), _)] ((a1 : ℤ), _)
                rcases List.mem_cons.mp hmem with hbest | hbest
                · left
                  rw [hbest]
                · rcases List.mem_cons.mp hbest with hb | hb
                  · right; left
                    rw [hb]
                  · right; right
                    rcases List.mem_singleton.mp hb with hb'
                    rw [hb']
              · exact ih tab0 hrest kv hkv'
    all_goals exact ih tab htab kv hkv

lemma ftld_loop_plays_from_hand (firl : K3 → Option V3) :
    ∀ (l : List (List ℤ × ℚ × (ℤ → ℤ))) (tab : List (K3 × E4)),
      ftld_loop firl l = some tab →
      ∀ kv ∈ tab, kv.2.1 = kv.1.1 ∨ kv.2.1 = kv.1.2.1 ∨ kv.2.1 = kv.1.2.2 := by
  intro l
  induction l with
  | nil =>
    intro tab htab kv hkv
    simp only [ftld_loop, Option.some.injEq] at htab
    subst htab
    cases hkv
  | cons e rest ih =>
    intro tab htab kv hkv
    obtain ⟨t, pr⟩ := e
    rcases t with _ | ⟨a1, _ | ⟨a2, _ | ⟨a3, _ | _⟩⟩⟩ <;>
      simp only [ftld_loop] at htab
    case cons.cons.cons.nil =>
      split at htab
      · exact ih tab htab kv hkv
      · split at htab
        · cases htab
        · split at htab
          · cases htab
          · split at htab
            · cases htab
            · rcases Option.map_eq_some'.mp htab with ⟨tab0, hrest, heq⟩
              subst heq
              rcases List.mem_cons.mp hkv with rfl | hkv'
              · obtain ⟨hmem, _⟩ := put_best_spec [((a2 : ℤ), _), ((a3 : ℤ), _)] ((a1 : ℤ), _)
                rcases List.mem_cons.mp hmem with hbest | hbest
                · left
                  rw [hbest]
                · rcases List.mem_cons.mp hbest with hb | hb
                  · right; left
                    rw [hb]
                  · right; right
                    rcases List.mem_singleton.mp hb with hb'
                    rw [hb']
              · exact ih tab0 hrest kv hkv'
    all_goals exact ih tab htab kv hkv

/-- C10: whenever one of the four decision tables is built (for any deck and
any underlying value tables), the recommended move stored at each entry is
one of the unplayed cards listed in that entry's key. -/
theorem decision_tables_recommend_card_from_hand
    (keys : List ℤ) (cnt : ℤ → ℤ) (secf : K5 → Option V3) (secl : K4 → Option V3)
    (firf : K4 → Option V3) (firl : K3 → Option V3) :
    (∀ tab, second_trick_follower_decision keys cnt secf = some tab →
      ∀ kv ∈ tab, kv.2.1 = kv.1.1 ∨ kv.2.1 = kv.1.2.1) ∧
    (∀ tab, second_trick_leader_decision keys cnt secl = some tab →
      ∀ kv ∈ tab, kv.2.1 = kv.1.1 ∨ kv.2.1 = kv.1.2.1) ∧
    (∀ tab, first_trick_follower_decision keys cnt firf = some tab →
      ∀ kv ∈ tab, kv.2.1 = kv.1.1 ∨ kv.2.1 = kv.1.2.1 ∨ kv.2.1 = kv.1.2.2.1) ∧
    (∀ tab, first_trick_leader_decision keys cnt firl = some tab →
      ∀ kv ∈ tab, kv.2.1 = kv.1.1 ∨ kv.2.1 = kv.1.2.1 ∨ kv.2.1 = kv.1.2.2) :=
  ⟨fun tab htab => stfd_loop_plays_from_hand secf (perm_k keys cnt 5) tab htab,
   fun tab htab => stld_loop_plays_from_hand secl (perm_k keys cnt 4) tab htab,
   fun tab htab => ftfd_loop_plays_from_hand firf (perm_k keys cnt 4) tab htab,
   fun tab htab => ftld_loop_plays_from_hand firl (perm_k keys cnt 3) tab htab⟩

/-- Witness for C10 on the one-card deck `\x7b0: 6\x7d` with constant value
tables: the single second-trick-follower entry recommends card `0`, which is
one of the two unplayed cards in its key. -/
theorem decision_tables_recommend_card_from_hand_witness :
    second_trick_follower_decision [0] (fun a => if a = 0 then 6 else 0)
        (fun _ => some (0, 0, 0)) =
      some [((0, 0, 0, 0, 0), (0, 0, 0, 0))] ∧
    ((0 : ℤ) = 0 ∨ (0 : ℤ) = 0) := by
  constructor
  · with_unfolding_all decide
  · exact (decision_tables_recommend_card_from_hand [0]
        (fun a => if a = 0 then 6 else 0) (fun _ => some (0, 0, 0))
        (fun _ => some (0, 0, 0)) (fun _ => some (0, 0, 0)) (fun _ => some (0, 0, 0))).1
      [((0, 0, 0, 0, 0), (0, 0, 0, 0))] (by with_unfolding_all decide)
      ((0, 0, 0, 0, 0), (0, 0, 0, 0)) (List.mem_singleton.mpr rfl)

/-- `PutOptimalStrategy._get_wts(pw_tup)`: `(wt_win, wt_lose, prob_win_con_tie)`
for `pw_tup = (prob_win_con_win, prob_win_con_tie, prob_win_con_lose)`. -/
def get_wts (pw : ℚ × ℚ × ℚ) : ℚ × ℚ × ℚ := (pw.1 - pw.2.1, pw.2.2 - pw.2.1, pw.2.1)

/-- `PutOptimalStrategy._opponent_tup(pw_tup)`. -/
def opponent_tup (pw : ℚ × ℚ × ℚ) : ℚ × ℚ × ℚ := (1 - pw.2.2, 1 - pw.2.1, 1 - pw.1)

/-- `PutOptimalStrategy._put_tup(pw_tup)`: accelerated continuation tuple
after a successful put call. -/
def put_tup (pw : ℚ × ℚ × ℚ) : ℚ × ℚ × ℚ := (1, pw.2.1, 0)

/-- `PutOptimalStrategy.can_call_put(pw_tup)`. -/
def can_call_put (pw : ℚ × ℚ × ℚ) : Prop := pw.1 < 1

/-- Inner loop of `second_trick_follower_value` (`put.py` lines 247-255):
accumulate `(numr_win, numr_los, deno)` over `tail_urn.perm_k(k=1)`. -/
def stfv_inner (jf : ℤ → Bool) (myun1 mypl1 mypl2 thpl1 thpl2 : ℤ) :
    List (List ℤ × ℚ × (ℤ → ℤ)) → ℚ × ℚ × ℚ → ℚ × ℚ × ℚ
  | [], acc => acc
  | e :: rest, acc =>
    match e.1 with
    | [thun1] =>
      let oc := score_from jf (mypl1, thpl1) (mypl2, thpl2) (myun1, thun1)
      stfv_inner jf myun1 mypl1 mypl2 thpl1 thpl2 rest
        (acc.1 + e.2.1 * ((max oc 0 : ℤ) : ℚ),
          acc.2.1 - e.2.1 * ((min oc 0 : ℤ) : ℚ),
          acc.2.2 + e.2.1)
    | _ => stfv_inner jf myun1 mypl1 mypl2 thpl1 thpl2 rest acc

/-- `PutOptimalStrategy.second_trick_follower_value(pw_tup)` (`put.py` lines
236-259): for each 5-permutation `(myun1, mypl1, mypl2, thpl1, thpl2)` of the
deck, average the deal outcome over the opponent's remaining card and store
`(prob_win_con_tie + wt_win*pr_win + wt_lose*pr_los, pr_win, pr_los)`. -/
def second_trick_follower_value (keys : List ℤ) (cnt : ℤ → ℤ) (jf : ℤ → Bool)
    (pw : ℚ × ℚ × ℚ) : List (K5 × V3) :=
  let w := get_wts pw
  (perm_k keys cnt 5).filterMap fun e =>
    match e.1 with
    | [myun1, mypl1, mypl2, thpl1, thpl2] =>
      let s := stfv_inner jf myun1 mypl1 mypl2 thpl1 thpl2 (perm_k keys e.2.2 1) (0, 0, 0)
      let pr_win := s.1 / s.2.2
      let pr_los := s.2.1 / s.2.2
      some ((myun1, mypl1, mypl2, thpl1, thpl2),
        (w.2.2 + (w.1 * pr_win + w.2.1 * pr_los), pr_win, pr_los))
    | _ => none

/-- Inner loop of `second_trick_leader_value` (`put.py` lines 300-309):
accumulate over `tail_urn.perm_k(k=2)`, skipping `wt <= 0`, looking up the
opponent's optimal second-trick follow (`KeyError` aborts). -/
def stlv_inner (jf : ℤ → Bool) (secfd : K5 → Option E4) (myun1 mypl1 mypl2 thpl1 : ℤ) :
    List (List ℤ × ℚ × (ℤ → ℤ)) → ℚ × ℚ × ℚ → Option (ℚ × ℚ × ℚ)
  | [], acc => some acc
  | e :: rest, acc =>
    match e.1 with
    | [thun1, thun2] =>
      if e.2.1 ≤ 0 then stlv_inner jf secfd myun1 mypl1 mypl2 thpl1 rest acc
      else
        match secfd (max thun1 thun2, min thun1 thun2, thpl1, mypl1, mypl2) with
        | none => none
        | some d =>
          let thpl2 := d.1
          let thpl3 := if thpl2 = thun1 then thun2 else thun1
          let oc := score_from jf (mypl1, thpl1) (mypl2, thpl2) (myun1, thpl3)
          stlv_inner jf secfd myun1 mypl1 mypl2 thpl1 rest
            (acc.1 + e.2.1 * ((max oc 0 : ℤ) : ℚ),
              acc.2.1 - e.2.1 * ((min oc 0 : ℤ) : ℚ),
              acc.2.2 + e.2.1)
    | _ => stlv_inner jf secfd myun1 mypl1 mypl2 thpl1 rest acc

/-- Outer loop of `second_trick_leader_value` (`put.py` lines 281-313),
abstracted over the opponent's follow-decision table `secfd` (the code
builds it as `second_trick_follower_decision(pw_tup=_opponent_tup(pw_tup))`):
iterate `perm_k(k=4)`, skip `mypl1 < thpl1`, average the outcome with the
opponent following optimally. -/
def stlv_loop (keys : List ℤ) (jf : ℤ → Bool) (w : ℚ × ℚ × ℚ) (secfd : K5 → Option E4) :
    List (List ℤ × ℚ × (ℤ → ℤ)) → Option (List (K4 × V3))
  | [] => some []
  | e :: rest =>
    match e.1 with
    | [myun1, mypl1, mypl2, thpl1] =>
      if mypl1 < thpl1 then stlv_loop keys jf w secfd rest
      else
        match stlv_inner jf secfd myun1 mypl1 mypl2 thpl1 (perm_k keys e.2.2 2) (0, 0, 0) with
        | none => none
        | some s =>
          let pr_win := s.1 / s.2.2
          let pr_los := s.2.1 / s.2.2
          (stlv_loop keys jf w secfd rest).map
            (((myun1, mypl1, mypl2, thpl1),
              (w.2.2 + (w.1 * pr_win + w.2.1 * pr_los), pr_win, pr_los)) :: ·)
    | _ => stlv_loop keys jf w secfd rest

/-- `PutOptimalStrategy.second_trick_leader_value(pw_tup)` given the
opponent's follow-decision table. -/
def second_trick_leader_value (keys : List ℤ) (cnt : ℤ → ℤ) (jf : ℤ → Bool)
    (pw : ℚ × ℚ × ℚ) (secfd : K5 → Option E4) : Option (List (K4 × V3)) :=
  stlv_loop keys jf (get_wts pw) secfd (perm_k keys cnt 4)

/-- The chain of tables behind `second_trick_leader_decision(pw_tup)`, wired
exactly as the method calls in `put.py`:
`second_trick_follower_value(_opponent_tup(pw))` feeds
`second_trick_follower_decision(_opponent_tup(pw))`, which feeds
`second_trick_leader_value(pw)`, which feeds
`second_trick_leader_decision(pw)`. -/
def second_trick_leader_decision_tables (keys : List ℤ) (cnt : ℤ → ℤ) (jf : ℤ → Bool)
    (pw : ℚ × ℚ × ℚ) : Option (List (K4 × E4)) :=
  let secf := second_trick_follower_value keys cnt jf (opponent_tup pw)
  match second_trick_follower_decision keys cnt (lookupTab secf) with
  | none => none
  | some secfd =>
    match second_trick_leader_value keys cnt jf pw (lookupTab secfd) with
    | none => none
    | some secl => second_trick_leader_decision keys cnt (lookupTab secl)

/-- The 7-card deck `Urn(Counter(\x7b0: 1, 1: 3, 2: 3\x7d))`. -/
def cex_keys : List ℤ := [0, 1, 2]

/-- Counts of the 7-card counterexample deck. -/
def cex_cnt : ℤ → ℤ := fun a => if a = 0 then 1 else if a = 1 then 3 else if a = 2 then 3 else 0

/-- A joker-free rule set: `joker_func=lambda x: False`. -/
def no_joker : ℤ → Bool := fun _ => false

/-- C8 counterexample: on the deck `\x7b0: 1, 1: 3, 2: 3\x7d` with no jokers,
raising `p_win` from 7/16 to 1/2 (holding `p_tie = 1/4`, `p_lose = 0` fixed)
strictly decreases the optimal objective stored at the second-trick-leader
decision key `(2, 1, 2, 1)` from 7/16 to 5/12. -/
theorem solver_objective_not_monotone_in_pwin :
    (second_trick_leader_decision_tables cex_keys cex_cnt no_joker
        (7/16, 1/4, 0)).bind (fun tab => lookupTab tab (2, 1, 2, 1)) =
      some (1, 7/16, 1, 0) ∧
    (second_trick_leader_decision_tables cex_keys cex_cnt no_joker
        (1/2, 1/4, 0)).bind (fun tab => lookupTab tab (2, 1, 2, 1)) =
      some (1, 5/12, 2/3, 0) ∧
    (5 : ℚ)/12 < 7/16 := by
  refine ⟨by with_unfolding_all decide, by with_unfolding_all decide, by norm_num⟩

lemma perm_k_prob_nonneg (keys : List ℤ) (cnt : ℤ → ℤ) (k : ℕ) (hpos : ∀ a, 0 ≤ cnt a) :
    ∀ e ∈ perm_k keys cnt k, 0 ≤ e.2.1 ∧ ∀ b, 0 ≤ e.2.2 b := by
  intro e he
  rcases List.mem_map.mp he with ⟨t, htf, rfl⟩
  rcases List.mem_filter.mp htf with ⟨_, hne⟩
  have hne' : drawWt cnt t ≠ 0 := by simpa using hne
  constructor
  · apply div_nonneg
    · exact_mod_cast drawWt_nonneg t cnt hpos
    · have h0 : 0 ≤ totalCount keys cnt := by
        unfold totalCount
        apply List.sum_nonneg
        intro x hx
        rcases List.mem_map.mp hx with ⟨a, _, rfl⟩
        exact hpos a
      exact_mod_cast fallFac_nonneg k _ h0
  · intro b
    show 0 ≤ decrList cnt t b
    rw [decrList_eq]
    have := (drawWt_ne_zero_iff t cnt hpos).mp hne' b
    omega

lemma stfv_inner_nonneg (jf : ℤ → Bool) (m1 p1 p2 t1 t2 : ℤ) :
    ∀ (l : List (List ℤ × ℚ × (ℤ → ℤ))) (acc : ℚ × ℚ × ℚ),
      (∀ e ∈ l, 0 ≤ e.2.1) → 0 ≤ acc.1 → 0 ≤ acc.2.1 → 0 ≤ acc.2.2 →
      0 ≤ (stfv_inner jf m1 p1 p2 t1 t2 l acc).1 ∧
      0 ≤ (stfv_inner jf m1 p1 p2 t1 t2 l acc).2.1 ∧
      0 ≤ (stfv_inner jf m1 p1 p2 t1 t2 l acc).2.2 := by
  intro l
  induction l with
  | nil =>
    intro acc _ h1 h2 h3
    exact ⟨h1, h2, h3⟩
  | cons e rest ih =>
    intro acc hl h1 h2 h3
    have hw : 0 ≤ e.2.1 := hl e (List.mem_cons_self e rest)
    have hrest : ∀ x ∈ rest, 0 ≤ x.2.1 := fun x hx => hl x (List.mem_cons_of_mem e hx)
    obtain ⟨tup, pr⟩ := e
    rcases tup with _ | ⟨a1, _ | _⟩
    · exact ih acc hrest h1 h2 h3
    · simp only [stfv_inner]
      apply ih _ hrest
      · have hmax : (0 : ℚ) ≤ ((max (score_from jf (p1, t1) (p2, t2) (m1, a1)) 0 : ℤ) : ℚ) := by
          exact_mod_cast le_max_right _ 0
        have := mul_nonneg hw hmax
        dsimp only at h1 ⊢
        linarith
      · have hmin : ((min (score_from jf (p1, t1) (p2, t2) (m1, a1)) 0 : ℤ) : ℚ) ≤ 0 := by
          exact_mod_cast min_le_right _ 0
        have := mul_nonneg hw (neg_nonneg.mpr hmin)
        dsimp only at h2 ⊢
        linarith
      · dsimp only at h3 ⊢
        linarith
    · exact ih acc hrest h1 h2 h3

lemma forall2_filterMap {α β : Type} (f g : α → Option β) (R : β → β → Prop) :
    ∀ l : List α,
      (∀ a ∈ l, (f a = none ∧ g a = none) ∨
        ∃ b c, f a = some b ∧ g a = some c ∧ R b c) →
      List.Forall₂ R (l.filterMap f) (l.filterMap g) := by
  intro l
  induction l with
  | nil =>
    intro _
    simp only [List.filterMap_nil]
    exact List.Forall₂.nil
  | cons a l ih =>
    intro h
    have hl := fun x hx => h x (List.mem_cons_of_mem a hx)
    rcases h a (List.mem_cons_self a l) with ⟨hfa, hga⟩ | ⟨b, c, hfa, hga, hR⟩
    · simp only [List.filterMap_cons, hfa, hga]
      exact ih hl
    · simp only [List.filterMap_cons, hfa, hga]
      exact List.Forall₂.cons hR (ih hl)

lemma stfv_val_le (w w' t l prw prl : ℚ) (hw : w ≤ w') (hprw : 0 ≤ prw) :
    (get_wts (w, t, l)).2.2 +
        ((get_wts (w, t, l)).1 * prw + (get_wts (w, t, l)).2.1 * prl) ≤
      (get_wts (w', t, l)).2.2 +
        ((get_wts (w', t, l)).1 * prw + (get_wts (w', t, l)).2.1 * prl) := by
  simp only [get_wts]
  have := mul_le_mul_of_nonneg_right (by linarith : w - t ≤ w' - t) hprw
  linarith

lemma stfv_monotone (keys : List ℤ) (cnt : ℤ → ℤ) (jf : ℤ → Bool) (w w' t l : ℚ)
    (hpos : ∀ a, 0 ≤ cnt a) (hw : w ≤ w') :
    List.Forall₂ (fun p q : K5 × V3 => p.1 = q.1 ∧ p.2.1 ≤ q.2.1)
      (second_trick_follower_value keys cnt jf (w, t, l))
      (second_trick_follower_value keys cnt jf (w', t, l)) := by
  unfold second_trick_follower_value
  apply forall2_filterMap
  intro e he
  obtain ⟨tup, pr⟩ := e
  rcases tup with _ | ⟨a1, _ | ⟨a2, _ | ⟨a3, _ | ⟨a4, _ | ⟨a5, _ | _⟩⟩⟩⟩⟩
  · exact Or.inl ⟨rfl, rfl⟩
  · exact Or.inl ⟨rfl, rfl⟩
  · exact Or.inl ⟨rfl, rfl⟩
  · exact Or.inl ⟨rfl, rfl⟩
  · exact Or.inl ⟨rfl, rfl⟩
  · right
    have hout := perm_k_prob_nonneg keys cnt 5 hpos _ he
    have hin : ∀ x ∈ perm_k keys pr.2 1, 0 ≤ x.2.1 :=
      fun x hx => (perm_k_prob_nonneg keys pr.2 1 hout.2 x hx).1
    have hsn := stfv_inner_nonneg jf a1 a2 a3 a4 a5 (perm_k keys pr.2 1) (0, 0, 0) hin
      le_rfl le_rfl le_rfl
    refine ⟨_, _, rfl, rfl, rfl, ?_⟩
    exact stfv_val_le w w' t l _ _ hw (div_nonneg hsn.1 hsn.2.2)
  · exact Or.inl ⟨rfl, rfl⟩

lemma put_best_pair_val {β : Type} (hd x : ℤ × ℚ × β) :
    (put_best hd [x]).2.1 = max hd.2.1 x.2.1 := by
  rw [put_best_cons]
  by_cases hc : hd.2.1 < x.2.1 ∨ (x.2.1 = hd.2.1 ∧ x.1 < hd.1)
  · rw [if_pos hc, put_best_nil]
    rcases hc with h | ⟨heq, _⟩
    · exact (max_eq_right (le_of_lt h)).symm
    · rw [heq]
      exact (max_self _).symm
  · rw [if_neg hc, put_best_nil]
    push_neg at hc
    exact (max_eq_left hc.1).symm

lemma lookupTab_rel {κ υ : Type} [DecidableEq κ] (R : υ → υ → Prop)
    (tab tab' : List (κ × υ))
    (h : List.Forall₂ (fun p q => p.1 = q.1 ∧ R p.2 q.2) tab tab') :
    ∀ k, (lookupTab tab k = none ∧ lookupTab tab' k = none) ∨
      ∃ v v', lookupTab tab k = some v ∧ lookupTab tab' k = some v' ∧ R v v' := by
  induction h with
  | nil =>
    intro k
    exact Or.inl ⟨rfl, rfl⟩
  | @cons p q l1 l2 hpq hrest ih =>
    intro k
    obtain ⟨hkey, hR⟩ := hpq
    by_cases hk : p.1 = k
    · right
      refine ⟨p.2, q.2, ?_, ?_, hR⟩
      · simp only [lookupTab, if_pos hk]
      · simp only [lookupTab, if_pos (hkey ▸ hk)]
    · have hk' : ¬ q.1 = k := fun h => hk (hkey ▸ h)
      simp only [lookupTab, if_neg hk, if_neg hk']
      exact ih k

lemma stfd_loop_monotone (secf secf' : K5 → Option V3)
    (hrel : ∀ k, (secf k = none ∧ secf' k = none) ∨
      ∃ v v', secf k = some v ∧ secf' k = some v' ∧ v.1 ≤ v'.1) :
    ∀ (l : List (List ℤ × ℚ × (ℤ → ℤ))) (tab tab' : List (K5 × E4)),
      stfd_loop secf l = some tab → stfd_loop secf' l = some tab' →
      List.Forall₂ (fun p q : K5 × E4 => p.1 = q.1 ∧ p.2.2.1 ≤ q.2.2.1) tab tab' := by
  intro l
  induction l with
  | nil =>
    intro tab tab' h h'
    simp only [stfd_loop, Option.some.injEq] at h h'
    subst h
    subst h'
    exact List.Forall₂.nil
  | cons e rest ih =>
    intro tab tab' h h'
    obtain ⟨tup, pr⟩ := e
    rcases tup with _ | ⟨a1, _ | ⟨a2, _ | ⟨a3, _ | ⟨a4, _ | ⟨a5, _ | _⟩⟩⟩⟩⟩ <;>
      simp only [stfd_loop] at h h'
    case cons.cons.cons.cons.cons.nil =>
      by_cases hc : a1 < a2
      · rw [if_pos hc] at h h'
        exact ih tab tab' h h'
      · rw [if_neg hc] at h h'
        rcases hrel (a2, a3, a1, a4, a5) with ⟨hn, hn'⟩ | ⟨v1, v1', hs, hs', hv1⟩
        · rw [hn] at h
          rw [hn'] at h'
          exact ih tab tab' h h'
        · rw [hs] at h
          rw [hs'] at h'
          rcases hrel (a1, a3, a2, a4, a5) with ⟨hn2, hn2'⟩ | ⟨v2, v2', hs2, hs2', hv2⟩
          · rw [hn2] at h
            cases h
          · rw [hs2] at h
            rw [hs2'] at h'
            rcases Option.map_eq_some'.mp h with ⟨tab0, h0, heq⟩
            rcases Option.map_eq_some'.mp h' with ⟨tab0', h0', heq'⟩
            subst heq
            subst heq'
            refine List.Forall₂.cons ⟨rfl, ?_⟩ (ih tab0 tab0' h0 h0')
            show (put_best ((a1 : ℤ), v1) [(a2, v2)]).2.1 ≤
              (put_best ((a1 : ℤ), v1') [(a2, v2')]).2.1
            rw [put_best_pair_val, put_best_pair_val]
            exact max_le_max hv1 hv2
    all_goals exact ih tab tab' h h'

/-- C8 amended: the claim holds at the second-trick-follower layer, where
the stored objective is `p_tie + wt_win*pr_win + wt_lose*pr_los` with
`pr_win, pr_los ≥ 0` fixed: raising `p_win` alone never decreases any
stored value or optimal decision value there.  (At the leader layers the
opponent's re-optimised response can break it; see the counterexample.) -/
theorem second_trick_follower_tables_monotone_in_pwin
    (keys : List ℤ) (cnt : ℤ → ℤ) (jf : ℤ → Bool) (w w' t l : ℚ)
    (hpos : ∀ a, 0 ≤ cnt a) (hw : w ≤ w') :
    List.Forall₂ (fun p q : K5 × V3 => p.1 = q.1 ∧ p.2.1 ≤ q.2.1)
      (second_trick_follower_value keys cnt jf (w, t, l))
      (second_trick_follower_value keys cnt jf (w', t, l)) ∧
    ∀ tab tab',
      second_trick_follower_decision keys cnt
          (lookupTab (second_trick_follower_value keys cnt jf (w, t, l))) = some tab →
      second_trick_follower_decision keys cnt
          (lookupTab (second_trick_follower_value keys cnt jf (w', t, l))) = some tab' →
      List.Forall₂ (fun p q : K5 × E4 => p.1 = q.1 ∧ p.2.2.1 ≤ q.2.2.1) tab tab' := by
  have hval := stfv_monotone keys cnt jf w w' t l hpos hw
  refine ⟨hval, ?_⟩
  intro tab tab' h h'
  exact stfd_loop_monotone _ _
    (lookupTab_rel (fun v v' : V3 => v.1 ≤ v'.1) _ _ hval) (perm_k keys cnt 5) tab tab' h h'

/-- Witness for the amended C8 on the one-card deck `\x7b0: 6\x7d`, raising
`p_win` from 0 to 1. -/
theorem second_trick_follower_tables_monotone_in_pwin_witness :
    List.Forall₂ (fun p q : K5 × V3 => p.1 = q.1 ∧ p.2.1 ≤ q.2.1)
      (second_trick_follower_value [0] (fun a => if a = 0 then 6 else 0) no_joker (0, 0, 0))
      (second_trick_follower_value [0] (fun a => if a = 0 then 6 else 0) no_joker
        (1, 0, 0)) :=
  (second_trick_follower_tables_monotone_in_pwin [0] (fun a => if a = 0 then 6 else 0)
    no_joker 0 1 0 0 (by intro a; dsimp only; split <;> norm_num) (by norm_num)).1

/-- `PutOptimalStrategy.first_trick_call_put_decision(pw_tup)` (`put.py`
lines 496-516).  Its first statement is
`firld = self.first_trick_leader_decision(self, pw_tup=pw_tup)`: the bound
method already receives `self` implicitly, so the extra positional `self`
makes Python raise a `TypeError` (multiple values for argument `pw_tup`)
before any table is built; line 507 repeats the same mistake, and the
`p_win >= 1` branch at line 514 would unpack the 4-tuple `npval` into two
names.  The shallow embedding of the call is therefore the error value,
for every continuation tuple. -/
def first_trick_call_put_decision (pw : ℚ × ℚ × ℚ) :
    Except String (List (K3 × (String × ℚ))) :=
  Except.error
    "TypeError: first_trick_leader_decision() got multiple values for argument pw_tup"

/-- C6 (code bug): `first_trick_call_put_decision` never produces the
knock/call-put table the claim describes; the miswired call at `put.py`
lines 504 and 507 raises a `TypeError` on every continuation tuple. -/
theorem first_trick_call_put_decision_always_raises (pw : ℚ × ℚ × ℚ) :
    first_trick_call_put_decision pw =
      Except.error
        "TypeError: first_trick_leader_decision() got multiple values for argument pw_tup" :=
  rfl

/-! ## Root finding (`rootfind.py`)

`illinois_method` is embedded with its full loop state made observable:
`illinois_run` returns `(c, a, b, fb, iter)` at loop exit, and
`illinois_method` projects out the single value `c` that the Python
function returns.  The bracket assertion and the `return c` with `c`
unbound (initial `converged` true) are the two error outcomes. -/

/-- The `while not converged` loop of `rootfind.illinois_method` (lines
29-41): secant step, Illinois halving of the retained endpoint, then the
convergence test `(|a-b| < xtol) or (|fb| < ytol) or (iter > max_iter)`.
The fuel only pads the recursion; the loop itself always exits because
`iter` strictly increases. -/
def illinois_loop (f : ℚ → ℚ) : ℕ → ℚ → ℚ → ℚ → ℚ → ℕ → ℕ → ℚ → ℚ →
    Except String (ℚ × ℚ × ℚ × ℚ × ℕ)
  | 0, _, _, _, _, _, _, _, _ => Except.error "fuel exhausted"
  | fuel + 1, a, b, fa, fb, iter, max_iter, xtol, ytol =>
    let c := b - fb * (b - a) / (fb - fa)
    let fc := f c
    let iter' := iter + 1
    let p := if fb * fc < 0 then (b, fb) else (a, fa / 2)
    if |p.1 - c| < xtol ∨ |fc| < ytol ∨ max_iter < iter' then
      Except.ok (c, p.1, c, fc, iter')
    else
      illinois_loop f fuel p.1 c p.2 fc iter' max_iter xtol ytol

/-- `rootfind.illinois_method(f, a, b, max_iter, xtol, ytol)` with `fa`, `fb`
left to their `None` defaults, exposing the full loop state at return. -/
def illinois_run (f : ℚ → ℚ) (a b : ℚ) (max_iter : ℕ) (xtol ytol : ℚ) :
    Except String (ℚ × ℚ × ℚ × ℚ × ℕ) :=
  let fa := f a
  let fb := f b
  let iter : ℕ := 2
  if 0 < fa * fb then Except.error "AssertionError: values do not bracket a root?"
  else if |a - b| < xtol ∨ max_iter < iter then Except.error "UnboundLocalError: c"
  else illinois_loop f (max_iter + 1) a b fa fb iter max_iter xtol ytol

/-- What the Python function hands back: just the number `c`. -/
def illinois_method (f : ℚ → ℚ) (a b : ℚ) (max_iter : ℕ) (xtol ytol : ℚ) :
    Except String ℚ :=
  (illinois_run f a b max_iter xtol ytol).map fun s => s.1

lemma illinois_loop_exit (f : ℚ → ℚ) :
    ∀ (fuel : ℕ) (a b fa fb : ℚ) (iter max_iter : ℕ) (xtol ytol : ℚ)
      (s : ℚ × ℚ × ℚ × ℚ × ℕ),
      illinois_loop f fuel a b fa fb iter max_iter xtol ytol = Except.ok s →
      s.1 = s.2.2.1 ∧
        (|s.2.1 - s.2.2.1| < xtol ∨ |s.2.2.2.1| < ytol ∨ max_iter < s.2.2.2.2) := by
  intro fuel
  induction fuel with
  | zero =>
    intro a b fa fb iter max_iter xtol ytol s h
    exact absurd h (by simp [illinois_loop])
  | succ fuel ih =>
    intro a b fa fb iter max_iter xtol ytol s h
    simp only [illinois_loop] at h
    split at h <;> split at h
    · cases h
      exact ⟨rfl, by assumption⟩
    · exact ih _ _ _ _ _ _ _ _ s h
    · cases h
      exact ⟨rfl, by assumption⟩
    · exact ih _ _ _ _ _ _ _ _ s h

/-- C9 amended: when `illinois_run` returns with neither the x- nor the
y-tolerance met, the loop can only have exited by exhausting the iteration
budget (`iter > max_iter`), and `illinois_method` still returns the bare
final estimate `c` (the last secant iterate, equal to the final bracket end
`b`) wrapped in the same success constructor as a converged run: no
non-convergence flag is reported to the caller. -/
theorem illinois_method_budget_exhaustion_unflagged
    (f : ℚ → ℚ) (a b : ℚ) (max_iter : ℕ) (xtol ytol : ℚ) (s : ℚ × ℚ × ℚ × ℚ × ℕ)
    (hrun : illinois_run f a b max_iter xtol ytol = Except.ok s)
    (hx : ¬ |s.2.1 - s.2.2.1| < xtol) (hy : ¬ |s.2.2.2.1| < ytol) :
    max_iter < s.2.2.2.2 ∧ s.1 = s.2.2.1 ∧
      illinois_method f a b max_iter xtol ytol = Except.ok s.1 := by
  have hmeth : illinois_method f a b max_iter xtol ytol = Except.ok s.1 := by
    unfold illinois_method
    rw [hrun]
    rfl
  simp only [illinois_run] at hrun
  split at hrun
  · cases hrun
  · split at hrun
    · cases hrun
    · obtain ⟨hcb, hdisj⟩ := illinois_loop_exit f _ _ _ _ _ _ _ _ _ s hrun
      rcases hdisj with h | h | h
      · exact absurd h hx
      · exact absurd h hy
      · exact ⟨h, hcb, hmeth⟩

/-- Witness for the amended C9 at the concrete budget-exhausted run
`f(x) = x² - 2` on `[0, 2]` with `max_iter = 2`. -/
theorem illinois_method_budget_exhaustion_unflagged_witness :
    2 < 3 ∧ (1 : ℚ) = 1 ∧
      illinois_method (fun x => x * x - 2) 0 2 2 (1/10^15) (1/10^15) = Except.ok 1 := by
  have h := illinois_method_budget_exhaustion_unflagged (fun x => x * x - 2) 0 2 2
    (1/10^15) (1/10^15) (1, 2, 1, -1, 3) (by with_unfolding_all rfl)
    (by norm_num) (by norm_num)
  exact ⟨h.1, h.2.1, h.2.2⟩

/-- C9 counterexample: with `max_iter = 2` on `f(x) = x² - 2` over `[0, 2]`
the run exhausts its budget with residual `|fb| = 1` far above `ytol`, yet
`illinois_method` returns plain `Except.ok 1` — byte-for-byte the output of
the genuinely converged run on `f(x) = x - 1` over `[0, 2]` — so the
non-convergence is never flagged to the caller. -/
theorem illinois_method_no_nonconvergence_flag :
    illinois_run (fun x => x * x - 2) 0 2 2 (1/10^15) (1/10^15) =
      Except.ok (1, 2, 1, -1, 3) ∧
    ¬ |(2 : ℚ) - 1| < 1/10^15 ∧ ¬ |(-1 : ℚ)| < 1/10^15 ∧
    illinois_method (fun x => x * x - 2) 0 2 2 (1/10^15) (1/10^15) = Except.ok 1 ∧
    illinois_run (fun x => x - 1) 0 2 1000 (1/10^15) (1/10^15) =
      Except.ok (1, 0, 1, 0, 3) ∧
    |(0 : ℚ)| < 1/10^15 ∧
    illinois_method (fun x => x - 1) 0 2 1000 (1/10^15) (1/10^15) = Except.ok 1 := by
  refine ⟨by with_unfolding_all rfl, by norm_num, by norm_num,
    by with_unfolding_all rfl, by with_unfolding_all rfl, by norm_num,
    by with_unfolding_all rfl⟩

/-- `PutOptimalStrategy.iterate_tie_pwin(pw_start, ...)` (`put.py` lines
644-650) composed with `root_polish` (lines 45-69), abstracted over the
solver's unconditional win probability `prob_win`.  `iterate_tie_pwin`
builds `ffunc = lambda x: self.prob_win(pw_tup=(pw_start[0], x, pw_start[2]))`
and calls `root_polish(ffunc, pw_start[1], ytol=..., xtol=..., max_iter=...,
verbosity=...)`, leaving `y0` at its default `None` (the `verbosity` keyword
lands in `**kwargs`).  `root_polish` then computes `y0 = f(x0)` — one full
`prob_win` solve at `(pw_start[0], pw_start[1], pw_start[2])` — and
immediately executes `if verbosity > 0:` at line 59.  But `verbosity` is
not a parameter of `root_polish`, not a local, not a module global (the
later `verbosity=` lines of `put.py` sit inside triple-quoted strings), and
not a builtin, so Python deterministically raises
`NameError: name verbosity is not defined`, independently of the deck, the
start tuple, and all floating-point behaviour.  The embedding evaluates and
discards the `prob_win` value the code computes before failing. -/
def iterate_tie_pwin (prob_win : ℚ × ℚ × ℚ → ℚ) (pw_start : ℚ × ℚ × ℚ) :
    Except String (ℚ × ℚ × ℚ) :=
  let _ := prob_win (pw_start.1, pw_start.2.1, pw_start.2.2)
  Except.error "NameError: name verbosity is not defined"

/-- C7 (code bug): `iterate_tie_pwin` never terminates with an updated
tuple, let alone a 1e-9 fixed point: its `root_polish` call leaves
`y0 = None`, and that branch reads the undefined name `verbosity`
(`put.py` line 59), so the call raises `NameError` for every solver
function and every start tuple — in particular from `(1, 0.5, 0)` on the
5-face, 4-copies-each deck. -/
theorem iterate_tie_pwin_always_raises (prob_win : ℚ × ℚ × ℚ → ℚ)
    (pw_start : ℚ × ℚ × ℚ) :
    iterate_tie_pwin prob_win pw_start =
      Except.error "NameError: name verbosity is not defined" := rfl

/-- C2: with no jokers, `score_match` is the sign of the median of the three
trick results, for all trick results in \x7b+1, 0, -1\x7d (hence in particular at
`(1,1,-1) ↦ 1`, `(1,-1,-1) ↦ -1`, `(1,-1,0) ↦ 0` and all permutations). -/
theorem score_match_no_joker_is_median_sign (t1 t2 t3 : ℤ)
    (h1 : t1 = 1 ∨ t1 = 0 ∨ t1 = -1) (h2 : t2 = 1 ∨ t2 = 0 ∨ t2 = -1)
    (h3 : t3 = 1 ∨ t3 = 0 ∨ t3 = -1) :
    score_match t1 t2 t3 false false = Int.sign (sort3 t1 t2 t3).2.1 := by
  rcases h1 with rfl | rfl | rfl <;> rcases h2 with rfl | rfl | rfl <;>
    rcases h3 with rfl | rfl | rfl <;> decide

/-- Witness for C2 at the three instances named by the spec. -/
theorem score_match_no_joker_is_median_sign_witness :
    score_match 1 1 (-1) false false = Int.sign (sort3 1 1 (-1)).2.1 ∧
    score_match 1 (-1) (-1) false false = Int.sign (sort3 1 (-1) (-1)).2.1 ∧
    score_match 1 (-1) 0 false false = Int.sign (sort3 1 (-1) 0).2.1 := by
  refine ⟨?_, ?_, ?_⟩
  · exact score_match_no_joker_is_median_sign 1 1 (-1) (by decide) (by decide) (by decide)
  · exact score_match_no_joker_is_median_sign 1 (-1) (-1) (by decide) (by decide) (by decide)
  · exact score_match_no_joker_is_median_sign 1 (-1) 0 (by decide) (by decide) (by decide)

/-- C3: with exactly one joker flag set, a 3-0 sweep by the joker side is a
loss for that side, while two trick wins plus a tie or plus a loss is still a
win for that side (stated for both sides via trick counts; results are from
player 1's perspective, so a player-2 outcome is negated). -/
theorem score_match_one_joker_sweep_rule (t1 t2 t3 : ℤ)
    (h1 : t1 = 1 ∨ t1 = 0 ∨ t1 = -1) (h2 : t2 = 1 ∨ t2 = 0 ∨ t2 = -1)
    (h3 : t3 = 1 ∨ t3 = 0 ∨ t3 = -1) :
    (([t1, t2, t3].count 1 = 3 → score_match t1 t2 t3 true false = -1) ∧
      ([t1, t2, t3].count 1 = 2 → score_match t1 t2 t3 true false = 1)) ∧
    (([t1, t2, t3].count (-1) = 3 → score_match t1 t2 t3 false true = 1) ∧
      ([t1, t2, t3].count (-1) = 2 → score_match t1 t2 t3 false true = -1)) := by
  rcases h1 with rfl | rfl | rfl <;> rcases h2 with rfl | rfl | rfl <;>
    rcases h3 with rfl | rfl | rfl <;> decide

/-- Witness for C3: a sweep with a joker converts to a loss, two wins and a
tie (resp. a loss) stay a win, on both sides. -/
theorem score_match_one_joker_sweep_rule_witness :
    score_match 1 1 1 true false = -1 ∧ score_match 1 1 0 true false = 1 ∧
    score_match 1 1 (-1) true false = 1 ∧ score_match (-1) (-1) (-1) false true = 1 ∧
    score_match (-1) (-1) 0 false true = -1 := by
  have hswp := score_match_one_joker_sweep_rule 1 1 1 (by decide) (by decide) (by decide)
  have htie := score_match_one_joker_sweep_rule 1 1 0 (by decide) (by decide) (by decide)
  have hlos := score_match_one_joker_sweep_rule 1 1 (-1) (by decide) (by decide) (by decide)
  have hsw2 := score_match_one_joker_sweep_rule (-1) (-1) (-1) (by decide) (by decide) (by decide)
  have hti2 := score_match_one_joker_sweep_rule (-1) (-1) 0 (by decide) (by decide) (by decide)
  exact ⟨hswp.1.1 (by decide), htie.1.2 (by decide), hlos.1.2 (by decide),
    hsw2.2.1 (by decide), hti2.2.2 (by decide)⟩

/-- C4: `score_match` is antisymmetric under perspective swap, for trick
results in \x7b+1, 0, -1\x7d and arbitrary joker flags. -/
theorem score_match_antisymmetric (t1 t2 t3 : ℤ) (joker_1 joker_2 : Bool)
    (h1 : t1 = 1 ∨ t1 = 0 ∨ t1 = -1) (h2 : t2 = 1 ∨ t2 = 0 ∨ t2 = -1)
    (h3 : t3 = 1 ∨ t3 = 0 ∨ t3 = -1) :
    score_match (-t1) (-t2) (-t3) joker_2 joker_1 =
      -score_match t1 t2 t3 joker_1 joker_2 := by
  rcases h1 with rfl | rfl | rfl <;> rcases h2 with rfl | rfl | rfl <;>
    rcases h3 with rfl | rfl | rfl <;> revert joker_1 joker_2 <;> decide

/-- Witness for C4 at `(1, 0, -1)` with one joker. -/
theorem score_match_antisymmetric_witness :
    score_match (-1) 0 1 false true = -score_match 1 0 (-1) true false := by
  simpa using score_match_antisymmetric 1 0 (-1) true false (by decide) (by decide) (by decide)

end Pygmalion
